import Mathlib

/-!
Verification of the `welford` crate (online weighted mean/variance accumulator).

The Rust struct `Welford<T, W>` carries three fields: an optional running mean,
an accumulated weight `total`, and `msq`, the running sum of weighted squared
deviations.  We embed the accumulator over the rationals: both the value type
`T` and the weight type `W` are taken to be `ℚ`, so the numeric cast from `W`
to `T` performed by the source (`cast(..).expect(..)`) is the identity and
never fails.  Rust field-by-field mutation becomes explicit state passing.
The source `merge` calls `Option::unwrap` on both means in its general branch;
we model that fallible step by letting `merge` return an `Option` state, with
`none` standing for the panic.
-/

/-- State of the accumulator, mirroring the fields of the Rust struct
`Welford<T, W>` with `T = W = ℚ`. -/
structure Welford where
  mean : Option ℚ
  total : ℚ
  msq : ℚ
deriving DecidableEq, Repr

namespace Welford

/-- `Welford::new` / `Welford::with_weights`: the empty accumulator. -/
def new : Welford :=
  { mean := none, total := 0, msq := 0 }

/-- `Welford::push_weighted`, translated statement by statement:
`total += weight`; seed the mean on the first sample; `delta`,
`weighted_delta`; `mean += weighted_delta / total` (new total);
`delta2` against the updated mean; `msq += weighted_delta * delta2`. -/
def push_weighted (s : Welford) (value weight : ℚ) : Welford :=
  let total := s.total + weight
  let mean0 :=
    match s.mean with
    | none => value
    | some m => m
  let delta := value - mean0
  let weighted_delta := delta * weight
  let mean1 := mean0 + weighted_delta / total
  let delta2 := value - mean1
  { mean := some mean1, total := total, msq := s.msq + weighted_delta * delta2 }

/-- `Welford::push`: the source body is `self.push_weighted(value, 1)`. -/
def push (s : Welford) (value : ℚ) : Welford :=
  push_weighted s value 1

/-- `Welford::mean`: returns the optional running mean. -/
def meanAcc (s : Welford) : Option ℚ :=
  s.mean

/-- `Welford::var`: `if self.total > W::one() { Some(self.msq / (total - 1)) }
else { None }`. -/
def var (s : Welford) : Option ℚ :=
  if 1 < s.total then some (s.msq / (s.total - 1)) else none

/-- `Welford::merge`: early return when `other` is empty, wholesale copy when
`self` is empty, otherwise the parallel combination formula.  The general
branch unwraps both means; a missing mean there models the Rust panic as
`none`. -/
def merge (self other : Welford) : Option Welford :=
  let weight := other.total
  if weight = 0 then some self
  else if self.total = 0 then some other
  else
    match other.mean, self.mean with
    | some om, some sm =>
      let delta := om - sm
      let total := self.total + weight
      let weighted_delta := delta * weight
      let mean_corr := weighted_delta / total
      some { mean := some (sm + mean_corr)
             total := total
             msq := self.msq + (other.msq + delta * self.total * mean_corr) }
    | _, _ => none

end Welford

open Welford

/-- Accumulator states reachable from a fresh accumulator through
`push_weighted` with weights satisfying `P` and through merges that do not
panic.  `push` is the weight-one instance of `push_weighted`. -/
inductive Reachable (P : ℚ → Prop) : Welford → Prop
  | base : Reachable P Welford.new
  | ofPush (s : Welford) (v w : ℚ) : Reachable P s → P w →
      Reachable P (push_weighted s v w)
  | ofMerge (a b c : Welford) : Reachable P a → Reachable P b →
      merge a b = some c → Reachable P c

/-- Fold a list of (value, weight) pairs into an accumulator by repeated
`push_weighted`. -/
def pushList (s : Welford) (l : List (ℚ × ℚ)) : Welford :=
  l.foldl (fun a p => push_weighted a p.1 p.2) s

/-- Total weight of a list of (value, weight) pairs. -/
def sumW (l : List (ℚ × ℚ)) : ℚ :=
  (l.map fun p => p.2).sum

/-- Weight-weighted sum of the values of a list of (value, weight) pairs. -/
def sumWX (l : List (ℚ × ℚ)) : ℚ :=
  (l.map fun p => p.2 * p.1).sum

/-- Weight-weighted sum of the squared values of a list of (value, weight)
pairs. -/
def sumWX2 (l : List (ℚ × ℚ)) : ℚ :=
  (l.map fun p => p.2 * p.1 ^ 2).sum

/-- Claim C1: for every state and every (value, weight) pair, `push_weighted`
increments the total first, seeds the mean with the value when it is absent,
forms `delta` and `weighted_delta`, divides `weighted_delta` by the already
incremented total when updating the mean, and only then forms `delta2` from
the updated mean for the `msq` update. -/
theorem push_weighted_step_order (s : Welford) (v w : ℚ) :
    (push_weighted s v w).total = s.total + w ∧
    (push_weighted s v w).mean =
      some (s.mean.getD v + (v - s.mean.getD v) * w / (s.total + w)) ∧
    (push_weighted s v w).msq =
      s.msq + (v - s.mean.getD v) * w *
        (v - (s.mean.getD v + (v - s.mean.getD v) * w / (s.total + w))) := by
  cases h : s.mean <;> simp [push_weighted, h]

/-- Claim C2: `var` returns `msq / (total - 1)` exactly when `total > 1` and
is unavailable (`none`) exactly when `total ≤ 1`; it never produces a numeric
result for `total ≤ 1`. -/
theorem var_defined_iff (s : Welford) :
    (1 < s.total → var s = some (s.msq / (s.total - 1))) ∧
    (s.total ≤ 1 → var s = none) := by
  constructor
  · intro h
    simp [var, h]
  · intro h
    simp [var, not_lt.mpr h]

/-- Witness for C2 on two concrete states, one on each side of the
threshold. -/
theorem var_defined_iff_witness :
    var { mean := some 3, total := 2, msq := 6 } = some 6 ∧
    var { mean := some 3, total := 1, msq := 6 } = none := by
  constructor
  · have h := (var_defined_iff { mean := some 3, total := 2, msq := 6 }).1
      (by norm_num)
    have h6 : (6 : ℚ) / (2 - 1) = 6 := by norm_num
    rw [h6] at h
    exact h
  · exact (var_defined_iff { mean := some 3, total := 1, msq := 6 }).2 le_rfl

/-- Claim C4: merging an empty `other` leaves every field of `self` unchanged,
and merging a non-empty `other` into an empty `self` makes the fields of
`self` exactly those of `other`. -/
theorem merge_empty_cases (self other : Welford) :
    (other.total = 0 → merge self other = some self) ∧
    (other.total ≠ 0 → self.total = 0 → merge self other = some other) := by
  constructor
  · intro h
    simp [merge, h]
  · intro h1 h2
    simp [merge, h1, h2]

/-- Witness for C4: concrete empty-side merges in both directions. -/
theorem merge_empty_cases_witness :
    merge { mean := some 2, total := 3, msq := 4 } Welford.new =
      some { mean := some 2, total := 3, msq := 4 } ∧
    merge Welford.new { mean := some 2, total := 1, msq := 0 } =
      some { mean := some 2, total := 1, msq := 0 } := by
  constructor
  · exact (merge_empty_cases { mean := some 2, total := 3, msq := 4 }
      Welford.new).1 rfl
  · exact (merge_empty_cases Welford.new
      { mean := some 2, total := 1, msq := 0 }).2 (by norm_num) rfl

/-- Claim C7: `push` produces exactly the state of `push_weighted` with unit
weight; the source body of `push` is the call `push_weighted(value, 1)`. -/
theorem push_eq_push_weighted_one (s : Welford) (v : ℚ) :
    push s v = push_weighted s v 1 :=
  rfl

/-- Claim C10: a single weighted push on a fresh accumulator with weight
greater than one makes the variance available and exactly zero. -/
theorem first_push_var_zero (v w : ℚ) (hw : 1 < w) :
    var (push_weighted Welford.new v w) = some 0 := by
  simp [Welford.new, push_weighted, var, hw]

/-- Witness for C10 at value 5, weight 2. -/
theorem first_push_var_zero_witness :
    (1 : ℚ) < 2 ∧ var (push_weighted Welford.new 5 2) = some 0 :=
  ⟨by norm_num, first_push_var_zero 5 2 (by norm_num)⟩

/-- Inversion for a successful `merge`: either `other` was empty and `self`
is returned, or `self` was empty and `other` is returned, or both means were
present and the parallel combination state is returned. -/
theorem merge_eq_some {a b c : Welford} (h : merge a b = some c) :
    (b.total = 0 ∧ c = a) ∨
    (b.total ≠ 0 ∧ a.total = 0 ∧ c = b) ∨
    (b.total ≠ 0 ∧ a.total ≠ 0 ∧ ∃ om sm, b.mean = some om ∧ a.mean = some sm ∧
      c = { mean := some (sm + (om - sm) * b.total / (a.total + b.total))
            total := a.total + b.total
            msq := a.msq + (b.msq + (om - sm) * a.total *
              ((om - sm) * b.total / (a.total + b.total))) }) := by
  by_cases h1 : b.total = 0
  · left
    refine ⟨h1, ?_⟩
    simp [merge, h1] at h
    exact h.symm
  · by_cases h2 : a.total = 0
    · right; left
      refine ⟨h1, h2, ?_⟩
      simp [merge, h1, h2] at h
      exact h.symm
    · right; right
      refine ⟨h1, h2, ?_⟩
      cases hbm : b.mean with
      | none =>
        rw [merge, if_neg h1, if_neg h2, hbm] at h
        simp at h
      | some om =>
        cases ham : a.mean with
        | none =>
          rw [merge, if_neg h1, if_neg h2, hbm, ham] at h
          simp at h
        | some sm =>
          rw [merge, if_neg h1, if_neg h2, hbm, ham] at h
          simp at h
          exact ⟨om, sm, rfl, rfl, h.symm⟩

/-- In any reachable state, regardless of the weight discipline, an absent
mean forces a zero total: every mutation that keeps the total nonzero also
sets the mean. -/
theorem reachable_mean_none {P : ℚ → Prop} {s : Welford}
    (h : Reachable P s) : s.mean = none → s.total = 0 := by
  induction h with
  | base => intro _; rfl
  | ofPush s v w hs hw ih =>
    intro hm
    simp [push_weighted] at hm
  | ofMerge a b c ha hb hm iha ihb =>
    intro hmean
    rcases merge_eq_some hm with ⟨h1, rfl⟩ | ⟨h1, h2, rfl⟩ |
      ⟨h1, h2, om, sm, hbm, ham, rfl⟩
    · exact iha hmean
    · exact ihb hmean
    · simp at hmean

/-- States reachable with strictly positive weights have a non-negative total
and a mean that is absent exactly when the total is zero. -/
theorem reachable_pos_invariant {s : Welford}
    (h : Reachable (fun w => 0 < w) s) :
    (s.mean = none ↔ s.total = 0) ∧ 0 ≤ s.total := by
  induction h with
  | base => simp [Welford.new]
  | ofPush s v w hs hw ih =>
    have hw' : (0 : ℚ) < w := hw
    have htot : (0 : ℚ) < s.total + w := by linarith [ih.2]
    constructor
    · constructor
      · intro hm
        simp [push_weighted] at hm
      · intro ht
        rw [show (push_weighted s v w).total = s.total + w from rfl] at ht
        exact absurd ht (ne_of_gt htot)
    · rw [show (push_weighted s v w).total = s.total + w from rfl]
      exact le_of_lt htot
  | ofMerge a b c ha hb hm iha ihb =>
    rcases merge_eq_some hm with ⟨h1, rfl⟩ | ⟨h1, h2, rfl⟩ |
      ⟨h1, h2, om, sm, hbm, ham, rfl⟩
    · exact iha
    · exact ihb
    · have hat : 0 < a.total := lt_of_le_of_ne iha.2 (Ne.symm h2)
      have hbt : 0 < b.total := lt_of_le_of_ne ihb.2 (Ne.symm h1)
      have hsum : (0 : ℚ) < a.total + b.total := by linarith
      constructor
      · simp
        exact ne_of_gt hsum
      · simpa using le_of_lt hsum

/-- Counterexample to C5 as stated: weight zero is non-negative, and a single
zero-weight push on a fresh accumulator is a reachable state whose total is
zero while its mean is present. -/
theorem mean_absent_iff_total_zero_cex :
    Reachable (fun w => 0 ≤ w) (push_weighted Welford.new 5 0) ∧
    ¬ ((push_weighted Welford.new 5 0).mean = none ↔
        (push_weighted Welford.new 5 0).total = 0) :=
  ⟨Reachable.ofPush Welford.new 5 0 Reachable.base le_rfl,
   by norm_num [push_weighted, Welford.new]; simp⟩

/-- Claim C5 (amended): in every state reachable from a fresh accumulator by
pushes with strictly positive weights and by merges, the mean is absent if
and only if the total is zero. -/
theorem mean_absent_iff_total_zero (s : Welford)
    (h : Reachable (fun w => 0 < w) s) :
    s.mean = none ↔ s.total = 0 :=
  (reachable_pos_invariant h).1

/-- Witness for C5 (amended) on the state after one unit-weight push. -/
theorem mean_absent_iff_total_zero_witness :
    ((push_weighted Welford.new 1 1).mean = none ↔
      (push_weighted Welford.new 1 1).total = 0) :=
  mean_absent_iff_total_zero (push_weighted Welford.new 1 1)
    (Reachable.ofPush Welford.new 1 1 Reachable.base (by norm_num))

/-- Claim C9: pushing any value with weight zero onto a reachable accumulator
whose total is positive changes none of the fields. -/
theorem zero_weight_push_identity (s : Welford)
    (h : Reachable (fun _ => True) s) (ht : 0 < s.total) (v : ℚ) :
    push_weighted s v 0 = s := by
  obtain ⟨m, hm⟩ : ∃ m, s.mean = some m := by
    cases hsm : s.mean with
    | none =>
      have := reachable_mean_none h hsm
      exact absurd this (by linarith)
    | some m => exact ⟨m, rfl⟩
  cases s with
  | mk mean total msq =>
    simp only at hm
    subst hm
    simp [push_weighted]

/-- Counterexample to C6 as stated: after all three calls
`push_weighted (1, 3)`, `push_weighted (3, 2)`, `push_weighted (5, 1)` the
mean is 7/3, not 1.8.  The saved test asserts the values 1.8 and 1.2 after
the first two calls only. -/
theorem weighted_push_sequence_cex :
    meanAcc (push_weighted (push_weighted (push_weighted Welford.new 1 3)
      3 2) 5 1) ≠ some (9 / 5) := by
  norm_num [push_weighted, Welford.new, meanAcc]

/-- Claim C6 (amended): starting from an empty weighted accumulator, the two
calls `push_weighted (1, 3)` and `push_weighted (3, 2)` yield mean 1.8 and
variance 1.2; the further call `push_weighted (5, 1)` yields mean 7/3 and
variance 8/3. -/
theorem weighted_push_sequence :
    meanAcc (push_weighted (push_weighted Welford.new 1 3) 3 2) =
      some (9 / 5) ∧
    var (push_weighted (push_weighted Welford.new 1 3) 3 2) = some (6 / 5) ∧
    meanAcc (push_weighted (push_weighted (push_weighted Welford.new 1 3)
      3 2) 5 1) = some (7 / 3) ∧
    var (push_weighted (push_weighted (push_weighted Welford.new 1 3) 3 2)
      5 1) = some (8 / 3) := by
  norm_num [push_weighted, Welford.new, meanAcc, var]

/-- Counterexample to C8 as stated: two distinct states with zero total are
each returned unchanged as the receiver of a merge with the other, so the
two merge orders give different results. -/
theorem merge_comm_cex :
    merge { mean := none, total := 0, msq := 1 }
        { mean := none, total := 0, msq := 0 } ≠
      merge { mean := none, total := 0, msq := 0 }
        { mean := none, total := 0, msq := 1 } := by
  simp [merge]

/-- Claim C8 (amended): over exact arithmetic, merge is commutative on the
resulting state for accumulators satisfying the data-model invariants: mean
absent exactly when total is zero, msq zero when total is zero, and
non-negative total. -/
theorem merge_comm (a b : Welford)
    (ha1 : a.mean = none ↔ a.total = 0) (ha2 : a.total = 0 → a.msq = 0)
    (ha3 : 0 ≤ a.total)
    (hb1 : b.mean = none ↔ b.total = 0) (hb2 : b.total = 0 → b.msq = 0)
    (hb3 : 0 ≤ b.total) :
    merge a b = merge b a := by
  by_cases hA : a.total = 0 <;> by_cases hB : b.total = 0
  · have ha : a = Welford.new := by
      cases a
      simp only at ha1 ha2 hA ⊢
      simp [Welford.new, ha1.mpr hA, hA, ha2 hA]
    have hb : b = Welford.new := by
      cases b
      simp only at hb1 hb2 hB ⊢
      simp [Welford.new, hb1.mpr hB, hB, hb2 hB]
    rw [ha, hb]
  · simp [merge, hA, hB]
  · simp [merge, hA, hB]
  · obtain ⟨ma, hma⟩ : ∃ m, a.mean = some m := by
      cases h : a.mean with
      | none => exact absurd (ha1.mp h) hA
      | some m => exact ⟨m, rfl⟩
    obtain ⟨mb, hmb⟩ : ∃ m, b.mean = some m := by
      cases h : b.mean with
      | none => exact absurd (hb1.mp h) hB
      | some m => exact ⟨m, rfl⟩
    have hat : (0 : ℚ) < a.total := lt_of_le_of_ne ha3 (Ne.symm hA)
    have hbt : (0 : ℚ) < b.total := lt_of_le_of_ne hb3 (Ne.symm hB)
    have hab : a.total + b.total ≠ 0 := by positivity
    have hba : b.total + a.total ≠ 0 := by positivity
    rw [merge, merge, if_neg hB, if_neg hA, if_neg hA, if_neg hB, hma, hmb]
    simp only [Option.some.injEq, Welford.mk.injEq]
    refine ⟨?_, ?_, ?_⟩
    · field_simp
      ring
    · ring
    · field_simp
      ring

/-- Witness for C8 (amended) on two concrete invariant-satisfying states. -/
theorem merge_comm_witness :
    merge { mean := some 1, total := 1, msq := 0 }
        { mean := some 3, total := 2, msq := 5 } =
      merge { mean := some 3, total := 2, msq := 5 }
        { mean := some 1, total := 1, msq := 0 } :=
  merge_comm { mean := some 1, total := 1, msq := 0 }
    { mean := some 3, total := 2, msq := 5 }
    (by simp) (by norm_num) (by norm_num)
    (by simp) (by norm_num) (by norm_num)

/-- Weights of a nonempty list of pairs with positive weights sum to a
positive total. -/
theorem sumW_pos (l : List (ℚ × ℚ)) (hpos : ∀ p ∈ l, 0 < p.2)
    (hne : l ≠ []) : 0 < sumW l := by
  refine List.sum_pos _ ?_ ?_
  · intro x hx
    obtain ⟨p, hp, rfl⟩ := List.mem_map.mp hx
    exact hpos p hp
  · intro h
    exact hne (List.map_eq_nil_iff.mp h)

/-- One weighted push preserves the closed summary form: the state whose mean
is the weighted average of the samples seen and whose msq is the centered
second moment, both expressed through the power sums. -/
theorem push_weighted_closed (S1 S2 W v w : ℚ) (hW : 0 < W) (hw : 0 < w) :
    push_weighted { mean := some (S1 / W), total := W, msq := S2 - S1 ^ 2 / W }
        v w =
      { mean := some ((S1 + w * v) / (W + w)), total := W + w,
        msq := S2 + w * v ^ 2 - (S1 + w * v) ^ 2 / (W + w) } := by
  have hW0 : W ≠ 0 := ne_of_gt hW
  have hWw : W + w ≠ 0 := by positivity
  simp only [push_weighted, Welford.mk.injEq, Option.some.injEq]
  refine ⟨?_, trivial, ?_⟩
  · field_simp
    ring
  · field_simp
    ring

/-- Closed form of the accumulator obtained by pushing a whole list of
positively weighted samples onto a fresh accumulator. -/
theorem pushList_closed (l : List (ℚ × ℚ)) (hpos : ∀ p ∈ l, 0 < p.2)
    (hne : l ≠ []) :
    pushList Welford.new l =
      { mean := some (sumWX l / sumW l), total := sumW l,
        msq := sumWX2 l - sumWX l ^ 2 / sumW l } := by
  induction l using List.reverseRecOn with
  | nil => exact absurd rfl hne
  | append_singleton l p ih =>
    rcases eq_or_ne l [] with rfl | hl
    · have hw : (0 : ℚ) < p.2 := hpos p (by simp)
      have hw0 : p.2 ≠ 0 := ne_of_gt hw
      simp only [List.nil_append, pushList, List.foldl_cons, List.foldl_nil]
      simp only [sumW, sumWX, sumWX2, List.map_cons, List.map_nil,
        List.sum_cons, List.sum_nil, add_zero]
      simp only [push_weighted, Welford.new, Welford.mk.injEq,
        Option.some.injEq]
      refine ⟨?_, by ring, ?_⟩
      · field_simp
      · field_simp
        ring
    · have hposl : ∀ q ∈ l, 0 < q.2 := fun q hq => hpos q (by simp [hq])
      have hwp : (0 : ℚ) < p.2 := hpos p (by simp)
      have hWl : 0 < sumW l := sumW_pos l hposl hl
      have hfold : pushList Welford.new (l ++ [p]) =
          push_weighted (pushList Welford.new l) p.1 p.2 := by
        simp [pushList, List.foldl_append]
      rw [hfold, ih hposl hl, push_weighted_closed _ _ _ _ _ hWl hwp]
      simp [sumW, sumWX, sumWX2]

/-- The three power sums are invariant under permutation of the samples. -/
theorem sums_perm {l1 l2 : List (ℚ × ℚ)} (h : l1.Perm l2) :
    sumW l1 = sumW l2 ∧ sumWX l1 = sumWX l2 ∧ sumWX2 l1 = sumWX2 l2 :=
  ⟨(h.map _).sum_eq, (h.map _).sum_eq, (h.map _).sum_eq⟩

/-- Claim C3: merging the accumulator built from 1, 3, 5, 7 (unit weights)
with the accumulator built from 2, 4, 6, 8 gives exactly the state of a
single accumulator fed all eight values in any order, with mean 9/2 and
variance 6. -/
theorem merge_split_streams (l : List (ℚ × ℚ))
    (hl : l.Perm [(1,1),(2,1),(3,1),(4,1),(5,1),(6,1),(7,1),(8,1)]) :
    merge (pushList Welford.new [(1,1),(3,1),(5,1),(7,1)])
        (pushList Welford.new [(2,1),(4,1),(6,1),(8,1)]) =
      some (pushList Welford.new l) ∧
    meanAcc (pushList Welford.new l) = some (9 / 2) ∧
    var (pushList Welford.new l) = some 6 := by
  have hpos : ∀ p ∈ l, 0 < p.2 := by
    intro p hp
    have hmem := hl.mem_iff.mp hp
    fin_cases hmem <;> norm_num
  have hne : l ≠ [] := by
    intro h
    rw [h] at hl
    have := hl.length_eq
    simp at this
  have hsums := sums_perm hl
  have hW : sumW l = 8 := by
    rw [hsums.1]
    norm_num [sumW]
  have hX : sumWX l = 36 := by
    rw [hsums.2.1]
    norm_num [sumWX]
  have hX2 : sumWX2 l = 204 := by
    rw [hsums.2.2]
    norm_num [sumWX2]
  have hstate : pushList Welford.new l =
      { mean := some (9 / 2), total := 8, msq := 42 } := by
    rw [pushList_closed l hpos hne, hW, hX, hX2]
    norm_num
  have hA : pushList Welford.new [(1,1),(3,1),(5,1),(7,1)] =
      { mean := some 4, total := 4, msq := 20 } := by
    rw [pushList_closed _ (by intro p hp; fin_cases hp <;> norm_num)
      (by simp)]
    norm_num [sumW, sumWX, sumWX2]
  have hB : pushList Welford.new [(2,1),(4,1),(6,1),(8,1)] =
      { mean := some 5, total := 4, msq := 20 } := by
    rw [pushList_closed _ (by intro p hp; fin_cases hp <;> norm_num)
      (by simp)]
    norm_num [sumW, sumWX, sumWX2]
  refine ⟨?_, ?_, ?_⟩
  · rw [hA, hB, hstate]
    norm_num [merge]
  · rw [hstate]
    rfl
  · rw [hstate]
    norm_num [var]

/-- Witness for C3 with the eight samples in ascending order. -/
theorem merge_split_streams_witness :
    merge (pushList Welford.new [(1,1),(3,1),(5,1),(7,1)])
        (pushList Welford.new [(2,1),(4,1),(6,1),(8,1)]) =
      some (pushList Welford.new
        [(1,1),(2,1),(3,1),(4,1),(5,1),(6,1),(7,1),(8,1)]) ∧
    meanAcc (pushList Welford.new
      [(1,1),(2,1),(3,1),(4,1),(5,1),(6,1),(7,1),(8,1)]) = some (9 / 2) ∧
    var (pushList Welford.new
      [(1,1),(2,1),(3,1),(4,1),(5,1),(6,1),(7,1),(8,1)]) = some 6 :=
  merge_split_streams _ (List.Perm.refl _)

/-- Witness for C9: a zero-weight push on the state reached by pushing the
value 2 with weight 1. -/
theorem zero_weight_push_identity_witness :
    (0 : ℚ) < (push_weighted Welford.new 2 1).total ∧
    push_weighted (push_weighted Welford.new 2 1) 7 0 =
      push_weighted Welford.new 2 1 :=
  ⟨by norm_num [push_weighted, Welford.new],
   zero_weight_push_identity (push_weighted Welford.new 2 1)
    (Reachable.ofPush Welford.new 2 1 Reachable.base trivial)
    (by norm_num [push_weighted, Welford.new]) 7⟩
